import Mathlib

/-!
Verification of the apply-op specialization pass
(`lib/Optimizer/Transforms/ApplyOpSpecialization.cpp`).

The development shallowly embeds the structured IR fragment the pass
manipulates: operations with nested regions of blocks, SSA-style value
references, and the `cc.loop` / `cc.if` / `cc.scope` constructs, together
with the arithmetic and memory operations the loop analyses inspect.

Conventions of the embedding (documented once here):
* A value is block-relative: `arg i` is argument `i` of the enclosing
  block, `res i` the result of op `i` of the enclosing block, `outer i`
  the result of op `i` of the block one nesting level up (used for values
  the rewriter materializes just before a loop), `fnArg i` an entry-block
  argument of the enclosing function referenced from a nested region, and
  `ext i` a value defined elsewhere, described by an external environment.
* Memory cells live in the external environment: the `memref.alloca`
  feeding loop loads/stores is referenced as `ext i`, and the environment
  records whether that defining op is an alloca of scalar integral type.
  Allocas may also appear as block-local ops (`res i`).  Pointer equality
  of defining `Operation*`s in the C++ becomes equality of these
  references; ops living in different blocks are never pointer-equal,
  which the definitions below encode directly.
* MLIR verifies (CCOps.cpp, `LoopOp::verify`) that a loop op has exactly
  as many results as init args; the embedding therefore derives the
  result count of a loop from its init-arg list.
* Where the C++ would dereference a null `Operation*` (an `Operation`
  whose value is a block argument), the embedding returns the rejecting
  answer; the pass only meets verified IR where those cases cannot occur.
-/

namespace ApplySpec

/-- Integer comparison predicates of `arith.cmpi`. -/
inductive IPred where
  | eq | ne | slt | sle | sgt | sge | ult | ule | ugt | uge
  deriving DecidableEq, Repr

/-- An SSA value reference, relative to the block of the op that uses it. -/
inductive MVal where
  | arg (i : Nat)
  | res (i : Nat)
  | outer (i : Nat)
  | fnArg (i : Nat)
  | ext (i : Nat)
  deriving DecidableEq, Repr

mutual
/-- Operations of the IR fragment the pass manipulates.  Arithmetic ops
carry their integer width `w`; `quantum` is any op with the
`cudaq::QuantumGate` trait, carrying its `operand_segment_sizes`
`(s0, s1, s2)` (parameter, control and target segment sizes), its
`cudaq::Hermitian` (self-adjoint) trait bit and its `is_adj` attribute. -/
inductive MOp where
  | constI (w : Nat) (v : Int)
  | addi (w : Nat) (a b : MVal)
  | subi (w : Nat) (a b : MVal)
  | muli (w : Nat) (a b : MVal)
  | divsi (w : Nat) (a b : MVal)
  | cmpi (p : IPred) (w : Nat) (a b : MVal)
  | selectOp (w : Nat) (c a b : MVal)
  | negf (a : MVal)
  | load (m : MVal)
  | store (v m : MVal)
  | alloca (scalar : Bool) (intElem : Bool)
  | condOp (c : MVal) (rs : List MVal)
  | contOp (rs : List MVal)
  | loop (post : Bool) (init : List MVal) (wr br sr : MRegion)
  | ifOp (c : MVal) (tr er : MRegion)
  | scope (r : MRegion)
  | lambda (r : MRegion)
  | quantum (herm adj : Bool) (s0 s1 s2 : Nat) (opnds : List MVal)
  | callOp (callee : String) (args : List MVal)
  | measure (t : MVal)
  | unknown (opnds : List MVal) (rs : List MRegion)

/-- A basic block: an argument count and an ordered op list (the last op
is the terminator). -/
inductive MBlock where
  | mk (numArgs : Nat) (ops : List MOp)

/-- A region: an ordered list of basic blocks. -/
inductive MRegion where
  | mk (blocks : List MBlock)
end

def MBlock.numArgs : MBlock → Nat
  | .mk n _ => n

def MBlock.ops : MBlock → List MOp
  | .mk _ ops => ops

def MRegion.blocks : MRegion → List MBlock
  | .mk bs => bs

/-- Operand list of an op, in the order `getOperands()` returns them. -/
def MOp.operands : MOp → List MVal
  | .constI _ _ => []
  | .addi _ a b => [a, b]
  | .subi _ a b => [a, b]
  | .muli _ a b => [a, b]
  | .divsi _ a b => [a, b]
  | .cmpi _ _ a b => [a, b]
  | .selectOp _ c a b => [c, a, b]
  | .negf a => [a]
  | .load m => [m]
  | .store v m => [v, m]
  | .alloca _ _ => []
  | .condOp c rs => c :: rs
  | .contOp rs => rs
  | .loop _ init _ _ _ => init
  | .ifOp c _ _ => [c]
  | .scope _ => []
  | .lambda _ => []
  | .quantum _ _ _ _ _ opnds => opnds
  | .callOp _ args => args
  | .measure t => [t]
  | .unknown opnds _ => opnds

/-- Regions of an op.  A `cc.loop` always owns three regions (the step
region may be empty of blocks); a `cc.if` owns two. -/
def MOp.regions : MOp → List MRegion
  | .loop _ _ wr br sr => [wr, br, sr]
  | .ifOp _ tr er => [tr, er]
  | .scope r => [r]
  | .lambda r => [r]
  | .unknown _ rs => rs
  | _ => []

def MOp.numRegions (op : MOp) : Nat := op.regions.length

def MOp.isIf : MOp → Bool
  | .ifOp _ _ _ => true
  | _ => false

/-- Result count of a `cc.loop`: equal to the init-arg count on verified
IR (`LoopOp::verify`). -/
def loopResultCount (init : List MVal) : Nat := init.length

/-- The defining op of a value, when it is defined in the given block
(the op list of that block); block arguments and values from other
blocks have no local defining op. -/
def getDef (ops : List MOp) : MVal → Option MOp
  | .res j => ops.get? j
  | _ => none

/-- What defines an external (`ext i`) value, as far as the analyses
need to know. -/
inductive ExtDef where
  | noDef
  | allocaOp (scalar : Bool) (intElem : Bool)
  | otherOp
  deriving DecidableEq, Repr

/-- Identity of a candidate induction memory cell: a block-local alloca
op or an external alloca op.  Stands for the `Operation*` pointer the
C++ stores in its `comparisonTemps` list. -/
inductive CellRef where
  | localOp (i : Nat)
  | extOp (i : Nat)
  deriving DecidableEq, Repr

/-- The scalar-integral-alloca test of `populateComparisonTemps`: the
memref operand of a load must be defined by a `memref.alloca` whose type
has empty shape and an integral element type. -/
def cellOf (σ : Nat → ExtDef) (ops : List MOp) : MVal → Option CellRef
  | .res j =>
      match ops.get? j with
      | some (.alloca sc ie) => if sc && ie then some (.localOp j) else none
      | _ => none
  | .ext i =>
      match σ i with
      | .allocaOp sc ie => if sc && ie then some (.extOp i) else none
      | _ => none
  | _ => none

/-- Embeds `populateComparisonTemps`: a depth-first walk from the
comparison op through same-block defining ops; loads contribute their
memref when it is a scalar integral alloca and are not traversed
further.  `fuel` bounds the walk depth; on well-formed SSA (an op only
uses results of earlier ops of its block) a fuel of one more than the
block length is never exhausted. -/
def tempsOf (σ : Nat → ExtDef) (ops : List MOp) : Nat → MOp → List CellRef
  | 0, _ => []
  | fuel + 1, op =>
      match op with
      | .load m => (cellOf σ ops m).toList
      | _ =>
          op.operands.flatMap (fun v =>
            match getDef ops v with
            | some d => tempsOf σ ops fuel d
            | none => [])

/-- Embeds the while-region part shared by `hasMonotonicLCV` and
`cloneReversedLoop`: the comparison temporaries of the loop, or `none`
when the while region has no terminating `cc.condition` whose condition
is defined in the while block. -/
def comparisonTempsOf (σ : Nat → ExtDef) (wb : MBlock) : Option (MOp × List CellRef) :=
  match wb.ops.getLast? with
  | some (.condOp c _) =>
      match getDef wb.ops c with
      | some cmp => some (cmp, tempsOf σ wb.ops (wb.ops.length + 1) cmp)
      | none => none
  | _ => none

def MOp.isAddSub : MOp → Bool
  | .addi _ _ _ => true
  | .subi _ _ _ => true
  | _ => false

/-- Membership of a step-block store target in the while-block candidate
list.  Pointer equality across sibling regions can only hold for ops
defined outside the loop, i.e. `ext` references. -/
def matchTarget (temps : List CellRef) : MVal → Option Nat
  | .ext i => if temps.contains (.extOp i) then some i else none
  | _ => none

/-- Contribution of one step-region op to the match count of
`hasMonotonicLCV`: for a store to a candidate cell whose stored value is
an add-or-subtract defined in the step block, one count per operand of
that add-or-subtract that is a load of the same cell. -/
def storeMatchCount (σ : Nat → ExtDef) (temps : List CellRef) (stepOps : List MOp) :
    MOp → Nat
  | .store v m =>
      match matchTarget temps m with
      | some i =>
          match getDef stepOps v with
          | some d =>
              if d.isAddSub then
                d.operands.foldl (fun acc o =>
                  acc + match getDef stepOps o with
                        | some (.load m2) =>
                            match m2 with
                            | .ext i2 => if i2 = i then 1 else 0
                            | _ => 0
                        | _ => 0) 0
              else 0
          | none => 0
      | none => 0
  | _ => 0

/-- Embeds `hasMonotonicLCV`: the memory-domain induction matcher. -/
def hasMonotonicLCV (σ : Nat → ExtDef) : MOp → Bool
  | .loop _ init wr _ sr =>
      if !init.isEmpty && !(loopResultCount init == 0) then false
      else
        match wr.blocks.getLast? with
        | none => false
        | some wb =>
            match comparisonTempsOf σ wb with
            | none => false
            | some (cmp, temps) =>
                match cmp with
                | .cmpi _ _ _ _ =>
                    match sr.blocks.getLast? with
                    | none => false
                    | some sb =>
                        (sb.ops.reverse.foldl
                          (fun acc op => acc + storeMatchCount σ temps sb.ops op) 0) == 1
                | _ => false
  | _ => false

/-- Embeds `hasMonotonicPHIControl`: the value-domain induction matcher. -/
def hasMonotonicPHIControl : MOp → Bool
  | .loop _ init wr br sr =>
      if init.isEmpty || loopResultCount init == 0 then false
      else
        match wr.blocks.getLast? with
        | none => false
        | some wb =>
            match wb.ops.getLast? with
            | some (.condOp c rs) =>
                if !(rs.head? == some (.arg 0)) then false
                else
                  match getDef wb.ops c with
                  | none => false
                  | some cmp =>
                      if !(cmp.operands.contains (.arg 0)) then false
                      else
                        match br.blocks.getLast? with
                        | none => false
                        | some bb =>
                            match bb.ops.getLast? with
                            | some (.contOp rs2) =>
                                if !(rs2.head? == some (.arg 0)) then false
                                else
                                  match sr.blocks.getLast? with
                                  | none => false
                                  | some sb =>
                                      match sb.ops.getLast? with
                                      | some (.contOp rs3) =>
                                          match rs3.head? with
                                          | none => false
                                          | some bv =>
                                              match getDef sb.ops bv with
                                              | some m =>
                                                  m.isAddSub &&
                                                  m.operands.contains (.arg 0)
                                              | none => false
                                      | _ => false
                            | _ => false
              | _ => false
  | _ => false

/-- Embeds `hasMonotonicControlInduction`. -/
def hasMonotonicControlInduction (σ : Nat → ExtDef) (op : MOp) : Bool :=
  hasMonotonicLCV σ op || hasMonotonicPHIControl op

/-- A loop op has a step region iff that region has blocks. -/
def hasStepRegion : MRegion → Bool
  | .mk [] => false
  | _ => true

/-- The `isa<ContinueOp>(getTerminator())` test on a block op list. -/
def endsInContinue (ops : List MOp) : Bool :=
  match ops.getLast? with
  | some (.contOp _) => true
  | _ => false

/-- Embeds `isaCountedLoop`. -/
def isaCountedLoop (σ : Nat → ExtDef) (op : MOp) : Bool :=
  match op with
  | .loop post init wr br sr =>
      if post || !hasStepRegion sr then false
      else
        match br.blocks with
        | [bb] =>
            endsInContinue bb.ops
            && hasMonotonicControlInduction σ (.loop post init wr br sr)
        | _ => false
  | _ => false

theorem endsInContinue_iff (ops : List MOp) :
    endsInContinue ops = true ↔ ∃ rs, ops.getLast? = some (.contOp rs) := by
  unfold endsInContinue
  split
  next rs heq => simp [heq]
  next hne =>
    constructor
    · intro h; exact absurd h (by simp)
    · rintro ⟨rs, heq⟩; exact absurd heq (hne rs)

mutual
/-- Embeds `regionHasUnstructuredControlFlow`. -/
def regionHasUnstructuredControlFlow (σ : Nat → ExtDef) : MRegion → Bool
  | .mk [] => false
  | .mk [.mk _ ops] => opsHaveUnstructured σ ops
  | .mk _ => true

def opsHaveUnstructured (σ : Nat → ExtDef) : List MOp → Bool
  | [] => false
  | op :: rest => opUnstructured σ op || opsHaveUnstructured σ rest

/-- One op of a single-block region, as the loop body of
`regionHasUnstructuredControlFlow` treats it: zero-region ops are
skipped; an op that is neither a `cc.if` nor a counted loop but has
more than one region makes the region unstructured; otherwise all its
regions are examined recursively. -/
def opUnstructured (σ : Nat → ExtDef) : MOp → Bool
  | .loop post init wr br sr =>
      !isaCountedLoop σ (.loop post init wr br sr)
      || (regionHasUnstructuredControlFlow σ wr
          || regionHasUnstructuredControlFlow σ br
          || regionHasUnstructuredControlFlow σ sr)
  | .ifOp _ tr er =>
      regionHasUnstructuredControlFlow σ tr || regionHasUnstructuredControlFlow σ er
  | .scope r => regionHasUnstructuredControlFlow σ r
  | .lambda r => regionHasUnstructuredControlFlow σ r
  | .unknown _ rs =>
      decide (rs.length > 1) || regionsHaveUnstructured σ rs
  | _ => false

def regionsHaveUnstructured (σ : Nat → ExtDef) : List MRegion → Bool
  | [] => false
  | r :: rest => regionHasUnstructuredControlFlow σ r || regionsHaveUnstructured σ rest
end

/-! ## Machine-integer arithmetic

Values of width `w` are kept as their signed representatives in
`[-2^(w-1), 2^(w-1))`; every arithmetic op re-normalizes with
`toSigned`.  `arith.divsi` is C-style truncating signed division
(`Int.tdiv`). -/

def toSigned (w : Nat) (x : Int) : Int :=
  (x + 2 ^ (w - 1)) % 2 ^ w - 2 ^ (w - 1)

def toUnsigned (w : Nat) (x : Int) : Int := x % 2 ^ w

/-- Semantics of the `arith.cmpi` predicates on width-`w` values stored
as signed representatives. -/
def evalIPred (p : IPred) (w : Nat) (a b : Int) : Bool :=
  match p with
  | .eq => a = b
  | .ne => a ≠ b
  | .slt => a < b
  | .sle => a ≤ b
  | .sgt => b < a
  | .sge => b ≤ a
  | .ult => toUnsigned w a < toUnsigned w b
  | .ule => toUnsigned w a ≤ toUnsigned w b
  | .ugt => toUnsigned w b < toUnsigned w a
  | .uge => toUnsigned w b ≤ toUnsigned w a

/-! ## A small interpreter

Enough semantics to run the straight-line arithmetic the rewriter emits
and to execute `cc.loop` ops whose three regions contain straight-line
code.  Memory is a map from external cell index to value; block-local
op results are accumulated positionally, mirroring SSA. -/

/-- Interpreter state local to one block: the memory and the result (if
any) of each op evaluated so far, by position. -/
structure LocalSt where
  mem : Nat → Int
  vals : List (Option Int)

/-- Resolve a value reference inside a block: `args` are the block
arguments, `vals` the results so far, `outerVals` the op results of the
enclosing block, `extE` the external environment. -/
def resolveVal (extE : Nat → Int) (outerVals : List (Option Int)) (args : List Int)
    (vals : List (Option Int)) : MVal → Option Int
  | .arg i => args.get? i
  | .res i => (vals.get? i).bind id
  | .outer i => (outerVals.get? i).bind id
  | .fnArg _ => none
  | .ext i => some (extE i)

/-- Evaluate one non-terminator, non-region op, appending its result
slot.  Loads and stores address external cells only (see the module
conventions). -/
def evalStraightOp (extE : Nat → Int) (outerVals : List (Option Int)) (args : List Int)
    (st : LocalSt) : MOp → Option LocalSt
  | .constI w v => some ⟨st.mem, st.vals ++ [some (toSigned w v)]⟩
  | .addi w a b => do
      let x ← resolveVal extE outerVals args st.vals a
      let y ← resolveVal extE outerVals args st.vals b
      some ⟨st.mem, st.vals ++ [some (toSigned w (x + y))]⟩
  | .subi w a b => do
      let x ← resolveVal extE outerVals args st.vals a
      let y ← resolveVal extE outerVals args st.vals b
      some ⟨st.mem, st.vals ++ [some (toSigned w (x - y))]⟩
  | .muli w a b => do
      let x ← resolveVal extE outerVals args st.vals a
      let y ← resolveVal extE outerVals args st.vals b
      some ⟨st.mem, st.vals ++ [some (toSigned w (x * y))]⟩
  | .divsi w a b => do
      let x ← resolveVal extE outerVals args st.vals a
      let y ← resolveVal extE outerVals args st.vals b
      some ⟨st.mem, st.vals ++ [some (toSigned w (Int.tdiv x y))]⟩
  | .cmpi p w a b => do
      let x ← resolveVal extE outerVals args st.vals a
      let y ← resolveVal extE outerVals args st.vals b
      some ⟨st.mem, st.vals ++ [some (if evalIPred p w x y then 1 else 0)]⟩
  | .selectOp _ c a b => do
      let cv ← resolveVal extE outerVals args st.vals c
      let x ← resolveVal extE outerVals args st.vals a
      let y ← resolveVal extE outerVals args st.vals b
      some ⟨st.mem, st.vals ++ [some (if cv ≠ 0 then x else y)]⟩
  | .load m =>
      match m with
      | .ext i => some ⟨st.mem, st.vals ++ [some (st.mem i)]⟩
      | _ => none
  | .store v m => do
      let x ← resolveVal extE outerVals args st.vals v
      match m with
      | .ext i => some ⟨fun j => if j = i then x else st.mem j, st.vals ++ [none]⟩
      | _ => none
  | .quantum _ _ _ _ _ _ => some ⟨st.mem, st.vals ++ [none]⟩
  | .alloca _ _ => some ⟨st.mem, st.vals ++ [none]⟩
  | _ => none

/-- Evaluate a list of straight-line ops in order. -/
def runStraight (extE : Nat → Int) (outerVals : List (Option Int)) (args : List Int)
    (st : LocalSt) : List MOp → Option LocalSt
  | [] => some st
  | op :: rest => do
      let st2 ← evalStraightOp extE outerVals args st op
      runStraight extE outerVals args st2 rest

/-- Run one region block up to its terminator and resolve the given
operand list of the terminator. -/
def runBlockTo (extE : Nat → Int) (outerVals : List (Option Int)) (args : List Int)
    (mem : Nat → Int) (b : MBlock) : Option (LocalSt × MOp) := do
  let st ← runStraight extE outerVals args ⟨mem, []⟩ b.ops.dropLast
  let term ← b.ops.getLast?
  some (st, term)

/-- Execute a `cc.loop` given its three regions, each a single block of
straight-line code: evaluate the while block with the carried values as
arguments, read its `cc.condition`; on false, exit with the forwarded
values; on true, run body then step, and loop on the step continuation
values.  Returns the final memory, the number of body executions, and
the exit values.  `fuel` bounds the iteration count. -/
def execLoop (extE : Nat → Int) (outerVals : List (Option Int)) (wr br sr : MRegion) :
    Nat → (Nat → Int) → Nat → List Int → Option ((Nat → Int) × Nat × List Int)
  | 0, _, _, _ => none
  | fuel + 1, mem, trips, carried =>
      match wr.blocks with
      | [wb] => do
          let (stW, termW) ← runBlockTo extE outerVals carried mem wb
          match termW with
          | .condOp c rs => do
              let cv ← resolveVal extE outerVals carried stW.vals c
              let fwd ← rs.mapM (resolveVal extE outerVals carried stW.vals)
              if cv = 0 then some (stW.mem, trips, fwd)
              else
                match br.blocks with
                | [bb] => do
                    let (stB, termB) ← runBlockTo extE outerVals fwd stW.mem bb
                    match termB with
                    | .contOp rs2 => do
                        let bvals ← rs2.mapM (resolveVal extE outerVals fwd stB.vals)
                        match sr.blocks with
                        | [sb] => do
                            let (stS, termS) ← runBlockTo extE outerVals bvals stB.mem sb
                            match termS with
                            | .contOp rs3 => do
                                let svals ← rs3.mapM
                                  (resolveVal extE outerVals bvals stS.vals)
                                execLoop extE outerVals wr br sr fuel stS.mem
                                  (trips + 1) svals
                            | _ => none
                        | _ => none
                    | _ => none
                | _ => none
          | _ => none
      | _ => none

/-- Execute the ops of a top-level block: straight-line ops directly,
`cc.loop` ops through `execLoop` (with the current result list as the
enclosing-block context).  Returns the final state and the total number
of loop body executions. -/
def execProgram (extE : Nat → Int) (fuel : Nat) :
    LocalSt → Nat → List MOp → Option (LocalSt × Nat)
  | st, trips, [] => some (st, trips)
  | st, trips, op :: rest =>
      match op with
      | .loop post init wr br sr =>
          if post then none
          else do
            let initVals ← init.mapM (resolveVal extE [] [] st.vals)
            let (mem2, cnt, _results) ←
              execLoop extE st.vals wr br sr fuel st.mem 0 initVals
            execProgram extE fuel ⟨mem2, st.vals ++ [none]⟩ (trips + cnt) rest
      | _ => do
          let st2 ← evalStraightOp extE [] [] st op
          execProgram extE fuel st2 trips rest

/-- The total loop-iteration count of a program, the observable the
double-reversal claims compare. -/
def progTrips (extE : Nat → Int) (fuel : Nat) (mem0 : Nat → Int) (ops : List MOp) :
    Option Nat :=
  (execProgram extE fuel ⟨mem0, []⟩ 0 ops).map (fun x => x.2)

/-! ## The loop reversal engine (`cloneReversedLoop`) -/

/-- Rewrite the operand slots of an op. -/
def MOp.mapOperands (f : MVal → MVal) : MOp → MOp
  | .constI w v => .constI w v
  | .addi w a b => .addi w (f a) (f b)
  | .subi w a b => .subi w (f a) (f b)
  | .muli w a b => .muli w (f a) (f b)
  | .divsi w a b => .divsi w (f a) (f b)
  | .cmpi p w a b => .cmpi p w (f a) (f b)
  | .selectOp w c a b => .selectOp w (f c) (f a) (f b)
  | .negf a => .negf (f a)
  | .load m => .load (f m)
  | .store v m => .store (f v) (f m)
  | .alloca sc ie => .alloca sc ie
  | .condOp c rs => .condOp (f c) (rs.map f)
  | .contOp rs => .contOp (rs.map f)
  | .loop post init wr br sr => .loop post (init.map f) wr br sr
  | .ifOp c tr er => .ifOp (f c) tr er
  | .scope r => .scope r
  | .lambda r => .lambda r
  | .quantum h a s0 s1 s2 opnds => .quantum h a s0 s1 s2 (opnds.map f)
  | .callOp n args => .callOp n (args.map f)
  | .measure t => .measure (f t)
  | .unknown opnds rs => .unknown (opnds.map f) rs

/-- Emission state for ops the rewriter inserts just before the new
loop: the ops emitted so far and the absolute index of the next one in
the enclosing block. -/
structure EmitSt where
  ops : List MOp
  next : Nat

def EmitSt.emit (st : EmitSt) (op : MOp) : EmitSt × MVal :=
  (⟨st.ops ++ [op], st.next + 1⟩, .res st.next)

/-- A value reference written inside a loop region, re-read from the
enclosing block: enclosing-block results become local results. -/
def hoistVal : MVal → MVal
  | .outer i => .res i
  | v => v

/-- Embeds `cloneRootSubexpression`: clone the block-locally defined
subexpression of `root` in front of the new loop.  (As in the source,
operand subtrees are cloned first and their results discarded; the
cloned root keeps its operand references.)  `fuel` bounds the recursion
depth, one more than the block length suffices on well-formed SSA. -/
def cloneRootSubexpr (blockOps : List MOp) : Nat → EmitSt → MVal → EmitSt × MVal
  | _, st, .ext i => (st, .ext i)
  | _, st, .outer i => (st, .res i)
  | _, st, .arg i => (st, .arg i)
  | _, st, .fnArg i => (st, .fnArg i)
  | 0, st, .res j => (st, .res j)
  | fuel + 1, st, .res j =>
      match blockOps.get? j with
      | none => (st, .res j)
      | some op =>
          let st2 := op.operands.foldl
            (fun acc v => (cloneRootSubexpr blockOps fuel acc v).1) st
          st2.emit (op.mapOperands hoistVal)

/-- Embeds the trip-count and new-start arithmetic of
`cloneReversedLoop` (the straight-line ops the builder emits between
the cloned subexpressions and the new loop).  Returns the emission
state, the iteration-count value, the new starting induction value and
the (possibly negated) step value. -/
def emitReversalArith (w : Nat) (pred : IPred) (stepIsAnAddOp : Bool)
    (initialValue newTermVal stepVal : MVal) (st : EmitSt) :
    EmitSt × MVal × MVal × MVal :=
  let (st, zero) := st.emit (.constI w 0)
  let (st, newStepVal) :=
    if stepIsAnAddOp then (st, stepVal)
    else st.emit (.subi w zero stepVal)
  let (st, iters0) := st.emit (.subi w newTermVal initialValue)
  let (st, iters1) :=
    if pred = .ule ∨ pred = .sle ∨ pred = .uge ∨ pred = .sge then
      st.emit (.addi w iters0 newStepVal)
    else (st, iters0)
  let (st, iters2) := st.emit (.divsi w iters1 newStepVal)
  let (st, noLoopCond) := st.emit (.cmpi .sgt w iters2 zero)
  let (st, iters3) := st.emit (.selectOp w noLoopCond iters2 zero)
  let (st, one) := st.emit (.constI w 1)
  let (st, adjustIters) := st.emit (.subi w iters3 one)
  let (st, nStep) := st.emit (.muli w adjustIters newStepVal)
  let (st, newInitVal) := st.emit (.addi w initialValue nStep)
  (st, iters3, newInitVal, newStepVal)

/-- The extraction half of `cloneReversedLoop`: recover `i`, A, B, C,
`cmp` and `bump` regardless of the loop structure.  Produces the
comparison width and predicate, whether the induction is a value, the
memory cell and step-op index in the memory case, the initial value as
written in the enclosing block (in the memory case, a fresh load is
emitted by the caller), terminal value and step operand (both as
written in their own block), and the `stepIsAnAddOp` and
`commuteTheAddOp` flags. -/
structure LoopFacts where
  w : Nat
  pred : IPred
  inductionIsValue : Bool
  cell : Nat
  stepOpIdx : Nat
  initialValue : MVal
  terminalValue : MVal
  stepValue : MVal
  stepIsAnAddOp : Bool
  commuteTheAddOp : Bool

/-- The first store (scanning the step block backwards) whose target is
one of the comparison temporaries, paired with the index defining its
stored value, as `cloneReversedLoop` recovers it in the memory case. -/
def findInductionStore (temps : List CellRef) : List MOp → Option (Nat × Option Nat)
  | [] => none
  | op :: rest =>
      match findInductionStore temps rest with
      | some r => some r
      | none =>
          match op with
          | .store v m =>
              match matchTarget temps m with
              | some i =>
                  some (i, match v with | .res j => some j | _ => none)
              | none => none
          | _ => none

def inductionOnLhs (ops : List MOp) (cell : Nat) (lhs rhs : MVal) : Option MVal :=
  match getDef ops lhs with
  | some (.load (.ext i)) => if i = cell then some rhs else none
  | _ => none

def oppositeOfInduction (ops : List MOp) (cell : Nat) (lhs rhs : MVal) : Option MVal :=
  match inductionOnLhs ops cell lhs rhs with
  | some r => some r
  | none =>
      match getDef ops rhs with
      | some (.load (.ext i)) => if i = cell then some lhs else none
      | _ => none

def extractLoopFacts (σ : Nat → ExtDef) (init : List MVal) (wr br sr : MRegion) :
    Option LoopFacts := do
  let wb ← wr.blocks.getLast?
  let sb ← sr.blocks.getLast?
  let inductionIsValue := hasMonotonicPHIControl (.loop false init wr br sr)
  let (cmp, temps) ← comparisonTempsOf σ wb
  match cmp with
  | .cmpi pred w cl cr =>
      if inductionIsValue then do
        let initValue ← init.head?
        let terminalValue ←
          if cl = .arg 0 then some cr
          else if cr = .arg 0 then some cl
          else none
        match sb.ops.getLast? with
        | some (.contOp rs3) => do
            let bv ← rs3.head?
            match getDef sb.ops bv with
            | some (.addi _ lhs rhs) =>
                if lhs = .arg 0 then
                  some ⟨w, pred, true, 0, 0, initValue, terminalValue, rhs, true, false⟩
                else if rhs = .arg 0 then
                  some ⟨w, pred, true, 0, 0, initValue, terminalValue, lhs, true, true⟩
                else none
            | some (.subi _ _ rhs) =>
                some ⟨w, pred, true, 0, 0, initValue, terminalValue, rhs, false, false⟩
            | _ => none
        | _ => none
      else do
        let (cell, stepIdx?) ← findInductionStore temps sb.ops
        let stepIdx ← stepIdx?
        let terminalValue ← oppositeOfInduction wb.ops cell cl cr
        match sb.ops.get? stepIdx with
        | some (.addi _ lhs rhs) => do
            let stepVal ← oppositeOfInduction sb.ops cell lhs rhs
            some ⟨w, pred, false, cell, stepIdx, .ext 0, terminalValue, stepVal, true,
                  lhs = stepVal⟩
        | some (.subi _ lhs rhs) => do
            let stepVal ← inductionOnLhs sb.ops cell lhs rhs
            some ⟨w, pred, false, cell, stepIdx, .ext 0, terminalValue, stepVal, false,
                  false⟩
        | _ => none
  | _ => none

/-- Replace the op at index `j` of a list. -/
def replaceAt (j : Nat) (newOp : MOp) (ops : List MOp) : List MOp :=
  ops.mapIdx (fun k op => if k = j then newOp else op)

/-- Embeds `cloneReversedLoop`.  `off` is the absolute index, in the
enclosing block, of the first op the rewriter emits; the result is the
emitted prelude followed by the new loop op (so the caller replaces the
original loop by this list).  Fails (`none`) where the C++ would crash
on an unexpected shape; requires the three regions to be single blocks,
the shape produced by the front end and re-produced by this rewrite. -/
def cloneReversedLoop (σ : Nat → ExtDef) (off : Nat) : MOp → Option (List MOp)
  | .loop _ init wr br sr => do
      let facts ← extractLoopFacts σ init wr br sr
      let wb ← match wr.blocks with | [wb] => some wb | _ => none
      let bb ← match br.blocks with | [bb] => some bb | _ => none
      let sb ← match sr.blocks with | [sb] => some sb | _ => none
      let w := facts.w
      let st0 : EmitSt := ⟨[], off⟩
      -- initial value: loop-carried init in the value case, a fresh load
      -- of the induction cell in the memory case
      let (st1, initialValue) :=
        if facts.inductionIsValue then (st0, facts.initialValue)
        else st0.emit (.load (.ext facts.cell))
      -- clone terminal and step subexpressions in front of the loop
      let (st2, newTermVal) :=
        cloneRootSubexpr wb.ops (wb.ops.length + 1) st1 facts.terminalValue
      let (st3, stepVal) :=
        cloneRootSubexpr sb.ops (sb.ops.length + 1) st2 facts.stepValue
      let (st4, itersVal, newInitVal, _newStepVal) :=
        emitReversalArith w facts.pred facts.stepIsAnAddOp initialValue newTermVal
          stepVal st3
      -- loop inputs; in the memory case pre-store the new start value
      let (st5, inputs) :=
        if facts.inductionIsValue then (st4, [newInitVal, itersVal])
        else ((st4.emit (.store newInitVal (.ext facts.cell))).1, [itersVal])
      -- the zero the new condition compares against is materialized in
      -- the enclosing block by the region-builder callback
      let (st6, zeroW) := st5.emit (.constI w 0)
      -- new while region: clone, add the trip-count argument, replace the
      -- condition with (trip > 0) forwarding the old results plus trip
      let wn := wb.numArgs
      let wk := wb.ops.length - 1
      let wr2 : MRegion ←
        match wb.ops.getLast? with
        | some (.condOp _ rs) =>
            some (.mk [.mk (wn + 1)
              (wb.ops.dropLast ++
               [.cmpi .sgt w (.arg wn) (match zeroW with | .res i => .outer i | v => v),
                .condOp (.res wk) (rs ++ [.arg wn])])])
        | _ => none
      -- new body region: clone, add the trip-count argument, continue with
      -- all entry arguments
      let bn := bb.numArgs
      let br2 : MRegion :=
        .mk [.mk (bn + 1)
          (bb.ops.dropLast ++ [.contOp ((List.range (bn + 1)).map MVal.arg)])]
      -- new step region
      let sn := sb.numArgs
      let sr2 : MRegion ←
        if facts.inductionIsValue then
          -- find the step op feeding the continue and emit the inverted bump
          match sb.ops.getLast? with
          | some (.contOp rs3) => do
              let bv ← rs3.head?
              match getDef sb.ops bv with
              | some (.addi ww a b) =>
                  let sk := sb.ops.length - 1
                  some (.mk [.mk (sn + 1)
                    (sb.ops.dropLast ++
                     [.subi ww (if facts.commuteTheAddOp then b else a)
                        (if facts.commuteTheAddOp then a else b),
                      .constI w 1,
                      .subi w (.arg sn) (.res (sk + 1)),
                      .contOp [.res sk, .res (sk + 2)]])])
              | some (.subi ww a b) =>
                  let sk := sb.ops.length - 1
                  some (.mk [.mk (sn + 1)
                    (sb.ops.dropLast ++
                     [.addi ww a b,
                      .constI w 1,
                      .subi w (.arg sn) (.res (sk + 1)),
                      .contOp [.res sk, .res (sk + 2)]])])
              | _ => none
          | _ => none
        else do
          -- invert the store arithmetic in place, then append the
          -- trip-count decrement
          let inverted ←
            match sb.ops.get? facts.stepOpIdx with
            | some (.addi ww a b) =>
                some (replaceAt facts.stepOpIdx
                  (.subi ww (if facts.commuteTheAddOp then b else a)
                    (if facts.commuteTheAddOp then a else b)) sb.ops)
            | some (.subi ww a b) =>
                some (replaceAt facts.stepOpIdx (.addi ww a b) sb.ops)
            | _ => none
          let sk := sb.ops.length - 1
          match sb.ops.getLast? with
          | some (.contOp _) =>
              some (.mk [.mk (sn + 1)
                (inverted.dropLast ++
                 [.constI w 1,
                  .subi w (.arg sn) (.res sk),
                  .contOp [.res (sk + 1)]])])
          | _ => none
      some (st6.ops ++ [.loop false inputs wr2 br2 sr2])
  | _ => none

/-! ## Characteristics queries

Modelled from the spec: the helpers `hasQuantum`, `hasCallOp`,
`hasMeasureOp` and `hasCharacteristic` come from
`cudaq/Optimizer/Dialect/Characteristics.h`, which is not part of the
analyzed sources; the spec describes them as recursive trait queries
over an op and everything nested in it ("is this a primitive gate-like
operation", "body must contain no call-like sub-invocations", "no
measurement operations"). -/

mutual
def opAnyOp (p : MOp → Bool) : MOp → Bool
  | .loop post init wr br sr =>
      p (.loop post init wr br sr) || regionAnyOp p wr || regionAnyOp p br
        || regionAnyOp p sr
  | .ifOp c tr er => p (.ifOp c tr er) || regionAnyOp p tr || regionAnyOp p er
  | .scope r => p (.scope r) || regionAnyOp p r
  | .lambda r => p (.lambda r) || regionAnyOp p r
  | .unknown o rs => p (.unknown o rs) || regionsAnyOp p rs
  | op => p op

def regionsAnyOp (p : MOp → Bool) : List MRegion → Bool
  | [] => false
  | r :: rest => regionAnyOp p r || regionsAnyOp p rest

def regionAnyOp (p : MOp → Bool) : MRegion → Bool
  | .mk bs => blocksAnyOp p bs

def blocksAnyOp (p : MOp → Bool) : List MBlock → Bool
  | [] => false
  | b :: rest => blockAnyOp p b || blocksAnyOp p rest

def blockAnyOp (p : MOp → Bool) : MBlock → Bool
  | .mk _ ops => opsAnyOp p ops

def opsAnyOp (p : MOp → Bool) : List MOp → Bool
  | [] => false
  | op :: rest => opAnyOp p op || opsAnyOp p rest
end

/-- Is this op itself a quantum operation (gate or measurement)? -/
def isQuantumKind : MOp → Bool
  | .quantum _ _ _ _ _ _ => true
  | .measure _ => true
  | _ => false

/-- Modelled from the spec: the quantum characteristic of an op, true
when the op or anything nested in it is a quantum operation; this is
what selects the ops `getOpsToInvert` collects (including the
`cc.if`/`cc.loop`/`cc.scope` constructs the reversal recurses into). -/
def opHasQuantumChar (op : MOp) : Bool := opAnyOp isQuantumKind op

/-- Modelled from the spec: a call-like sub-invocation anywhere in the
region. -/
def hasCallOp (r : MRegion) : Bool :=
  regionAnyOp (fun op => match op with | .callOp _ _ => true | _ => false) r

/-- Modelled from the spec: a measurement anywhere in the region. -/
def hasMeasureOp (r : MRegion) : Bool :=
  regionAnyOp (fun op => match op with | .measure _ => true | _ => false) r

/-- The `CreateLambdaOp`/`InstantiateCallableOp` characteristic checked
by `createAdjointVariantOf` (the predicate is verbatim in the source;
the recursive search is modelled from the spec). -/
def hasCallableOp (r : MRegion) : Bool :=
  regionAnyOp (fun op => match op with | .lambda _ => true | _ => false) r

/-! ## The reversal of a block (`reverseTheOpsInTheBlock`) -/

/-- Embeds `getOpsToInvert`: the ops of a block carrying the quantum
characteristic. -/
def getOpsToInvert (ops : List MOp) : List MOp := ops.filter opHasQuantumChar

mutual
/-- Embeds one op of the reversed-order emission of
`reverseTheOpsInTheBlock`: the ops inserted in front of the terminator
for it.  `base` is the absolute index the first emitted op will have in
the new block.  For a primitive gate: a fresh `arith.negf` of every
operand of its first (floating-point parameter) segment, then a clone
remapped to the negations, with the `is_adj` attribute toggled exactly
when there was no such operand and the op lacks the `Hermitian`
trait. -/
def processOne (σ : Nat → ExtDef) : Nat → Nat → MOp → Option (List MOp)
  | 0, _, _ => none
  | fuel + 1, base, op =>
      match op with
      | .ifOp c tr er => do
          let tr2 ← revRegion σ fuel tr
          let er2 ← revRegion σ fuel er
          some [.ifOp c tr2 er2]
      | .loop post init wr br sr => do
          let newOps ← cloneReversedLoop σ base (.loop post init wr br sr)
          match newOps.getLast? with
          | some (.loop post2 init2 wr2 br2 sr2) => do
              let br3 ← revRegion σ fuel br2
              some (newOps.dropLast ++ [.loop post2 init2 wr2 br3 sr2])
          | _ => none
      | .scope r => do
          let r2 ← revRegion σ fuel r
          some [.scope r2]
      | .quantum herm adj s0 s1 s2 opnds =>
          let fl := opnds.take s0
          let negs := fl.map MOp.negf
          let adj2 := if !herm && fl.isEmpty then !adj else adj
          some (negs ++
            [.quantum herm adj2 s0 s1 s2
              ((List.range fl.length).map (fun k => MVal.res (base + k)) ++
               opnds.drop s0)])
      | _ => none

def processInv (σ : Nat → ExtDef) : Nat → Nat → List MOp → Option (List MOp)
  | 0, _, _ => none
  | _ + 1, _, [] => some []
  | fuel + 1, base, op :: rest => do
      let chunk ← processOne σ fuel base op
      let restOps ← processInv σ fuel (base + chunk.length) rest
      some (chunk ++ restOps)

/-- Embeds `reverseTheOpsInTheBlock` on one block: the collected
quantum ops are re-inserted in front of the terminator in reverse
order (each erased from its place), every other op staying put. -/
def revBlock (σ : Nat → ExtDef) : Nat → MBlock → Option MBlock
  | 0, _ => none
  | fuel + 1, .mk n ops =>
      match ops.getLast? with
      | none => none
      | some term => do
          let body := ops.dropLast
          let keep := body.filter (fun op => !opHasQuantumChar op)
          let inv := getOpsToInvert body
          let emitted ← processInv σ fuel keep.length inv.reverse
          some (.mk n (keep ++ emitted ++ [term]))

/-- The recursive descent `invert` of `reverseTheOpsInTheBlock`:
reverse the front block of a region, if any. -/
def revRegion (σ : Nat → ExtDef) : Nat → MRegion → Option MRegion
  | 0, _ => none
  | fuel + 1, .mk [] => some (.mk [])
  | fuel + 1, .mk (b :: rest) => do
      let b2 ← revBlock σ fuel b
      some (.mk (b2 :: rest))
end

/-! ## Kernels and variant synthesis -/

inductive MType where
  | qvec
  | intTy (w : Nat)
  | f64
  | otherTy (n : Nat)
  deriving DecidableEq, Repr

/-- A kernel: a named function-like entity with parameters and one body
region. -/
structure MFunc where
  name : String
  params : List MType
  body : MRegion

def getAdjCtrlVariantFunctionName (n : String) : String := n ++ ".adj.ctrl"

def getAdjVariantFunctionName (n : String) : String := n ++ ".adj"

def getCtrlVariantFunctionName (n : String) : String := n ++ ".ctrl"

/-- Embeds `createAdjointVariantOf`: the four precondition checks, in
source order, each reporting and failing the pass; on success the body
is cloned and its entry block reversed. -/
def createAdjointVariantOf (σ : Nat → ExtDef) (fuel : Nat) (funcName : String)
    (f : MFunc) : Except String MFunc :=
  if regionHasUnstructuredControlFlow σ f.body then
    .error "cannot make adjoint of kernel with unstructured control flow"
  else if hasCallOp f.body then
    .error "cannot make adjoint of kernel with calls"
  else if hasCallableOp f.body then
    .error "cannot make adjoint of kernel with callable expressions"
  else if hasMeasureOp f.body then
    .error "cannot make adjoint of kernel with a measurement"
  else
    match f.body.blocks with
    | b :: rest =>
        match revBlock σ fuel b with
        | some b2 => .ok ⟨funcName, f.params, .mk (b2 :: rest)⟩
        | none => .error "reversal ran out of fuel or met an unsupported op"
    | [] => .error "kernel body has no entry block"

/-- One step of `step1` for the adjoint flag: on success the new
variant symbol is appended to the module symbol list; on failure the
pass reports the error and the module is left unchanged. -/
def moduleAddAdjoint (σ : Nat → ExtDef) (fuel : Nat) (m : List MFunc) (f : MFunc) :
    List MFunc × Option String :=
  match createAdjointVariantOf σ fuel (getAdjVariantFunctionName f.name) f with
  | .ok nf => (m ++ [nf], none)
  | .error e => (m, some e)

/-- Renaming of value references induced by `insertArgument(0)` on the
entry block: each pre-existing entry argument moves one position up,
keeping its identity.  `top` tells whether the op lives directly in the
entry block (referencing entry arguments as `arg`) or in a nested
region (referencing them as `fnArg`). -/
def ctrlRename (top : Bool) : MVal → MVal
  | .arg i => if top then .arg (i + 1) else .arg i
  | .fnArg i => .fnArg (i + 1)
  | v => v

/-- The new control operand as the op sees it. -/
def ctrlValue (top : Bool) : MVal := if top then .arg 0 else .fnArg 0

mutual
/-- Embeds the walk of `createControlVariantOf` on one op: an op with
the `QuantumGate` trait gets the new control inserted after its first
operand segment and its control segment size incremented; every other
op is cloned with the argument renaming only. -/
def ctrlOp (top : Bool) : MOp → MOp
  | .quantum h a s0 s1 s2 opnds =>
      let o := opnds.map (ctrlRename top)
      .quantum h a s0 (s1 + 1) s2 (o.take s0 ++ [ctrlValue top] ++ o.drop s0)
  | .loop post init wr br sr =>
      .loop post (init.map (ctrlRename top)) (ctrlRegion wr) (ctrlRegion br)
        (ctrlRegion sr)
  | .ifOp c tr er => .ifOp (ctrlRename top c) (ctrlRegion tr) (ctrlRegion er)
  | .scope r => .scope (ctrlRegion r)
  | .lambda r => .lambda (ctrlRegion r)
  | .unknown o rs => .unknown (o.map (ctrlRename top)) (ctrlRegions rs)
  | op => op.mapOperands (ctrlRename top)

def ctrlOps (top : Bool) : List MOp → List MOp
  | [] => []
  | op :: rest => ctrlOp top op :: ctrlOps top rest

def ctrlRegion : MRegion → MRegion
  | .mk bs => .mk (ctrlBlocks bs)

def ctrlRegions : List MRegion → List MRegion
  | [] => []
  | r :: rest => ctrlRegion r :: ctrlRegions rest

def ctrlBlocks : List MBlock → List MBlock
  | [] => []
  | b :: rest => ctrlBlock b :: ctrlBlocks rest

def ctrlBlock : MBlock → MBlock
  | .mk n ops => .mk n (ctrlOps false ops)
end

/-- Embeds `createControlVariantOf`: clone under the `.ctrl` name with
a generic qubit-register parameter prepended (inserted as argument 0 of
the entry block), and thread it as an extra control into every
`QuantumGate` op. -/
def createControlVariantOf (f : MFunc) : MFunc :=
  { name := getCtrlVariantFunctionName f.name,
    params := MType.qvec :: f.params,
    body :=
      match f.body with
      | .mk [] => .mk []
      | .mk (.mk n ops :: rest) =>
          .mk (.mk (n + 1) (ctrlOps true ops) :: ctrlBlocks rest) }

/-! ## Apply sites, their analysis, and the call-site rewrite -/

/-- A `quake.apply` op: target symbol, adjoint flag, control operands,
arguments. -/
structure ApplySite where
  callee : String
  isAdj : Bool
  controls : List MVal
  args : List MVal

/-- Embeds `getVariantFunctionName`. -/
def getVariantFunctionName (a : ApplySite) (calleeName : String) : String :=
  if a.isAdj && !a.controls.isEmpty then getAdjCtrlVariantFunctionName calleeName
  else if a.isAdj then getAdjVariantFunctionName calleeName
  else if !a.controls.isEmpty then getCtrlVariantFunctionName calleeName
  else calleeName

/-- An argument of the direct call an apply site becomes: either an
original argument or the `quake.concat` aggregate of the control
operands. -/
inductive CallArg where
  | plain (v : MVal)
  | concatReg (controls : List MVal)
  deriving DecidableEq, Repr

structure DirectCall where
  callee : String
  args : List CallArg
  deriving DecidableEq, Repr

/-- Embeds `ApplyOpPattern::matchAndRewrite`: replace the apply with a
direct call to the variant name; when controls are present they are
concatenated into one unsized qubit-register value prepended to the
original arguments. -/
def applyOpPatternRewrite (a : ApplySite) : DirectCall :=
  ⟨getVariantFunctionName a a.callee,
   (if !a.controls.isEmpty then [CallArg.concatReg a.controls] else []) ++
     a.args.map CallArg.plain⟩

/-- The per-kernel variant flags of the analysis. -/
structure ApplyVariants where
  needsControlVariant : Bool
  needsAdjointVariant : Bool
  needsAdjointControlVariant : Bool
  deriving DecidableEq, Repr

/-- Lookup in the analysis map (keyed by the resolved callee). -/
def mapFind (m : List (String × ApplyVariants)) (k : String) : Option ApplyVariants :=
  (m.find? (fun e => e.1 = k)).map (fun e => e.2)

/-- The insertion semantics of `llvm::DenseMap::insert`: the pair is
inserted only when the key is not already present; an existing entry is
left untouched. -/
def denseInsert (m : List (String × ApplyVariants)) (k : String) (v : ApplyVariants) :
    List (String × ApplyVariants) :=
  if (mapFind m k).isSome then m else m ++ [(k, v)]

/-- Modelled from the spec: `ApplyOp::applyToVariant` holds when the
site asks for anything other than a plain call, i.e. it is adjoint or
has controls (the analysis collects "which kernels need which
variants"). -/
def applyToVariant (a : ApplySite) : Bool := a.isAdj || !a.controls.isEmpty

/-- Embeds `ApplyOpAnalysis::performAnalysis`: walk the apply sites in
order, read the flags already recorded for the callee, set the one flag
this site implies, and `insert` the result into the map. -/
def performAnalysis (sites : List ApplySite) : List (String × ApplyVariants) :=
  sites.foldl
    (fun m a =>
      if !applyToVariant a then m
      else
        let variant := (mapFind m a.callee).getD ⟨false, false, false⟩
        let variant :=
          if a.isAdj && !a.controls.isEmpty then
            ApplyVariants.mk variant.needsControlVariant variant.needsAdjointVariant true
          else if a.isAdj then
            ApplyVariants.mk variant.needsControlVariant true
              variant.needsAdjointControlVariant
          else if !a.controls.isEmpty then
            ApplyVariants.mk true variant.needsAdjointVariant
              variant.needsAdjointControlVariant
          else variant
        denseInsert m a.callee variant)
    []

/-! ## Concrete fixtures shared by witnesses and counterexamples -/

/-- External environment: `ext 0` is a scalar integral alloca (the
induction cell); everything else is some other op. -/
def sigma0 : Nat → ExtDef := fun i => if i = 0 then .allocaOp true true else .otherOp

/-! ## Claim C7: the call-site rewrite -/

/-- Stated from the spec wording of claim C7: the callee name is the
original suffixed by `.adj.ctrl`, `.adj`, `.ctrl` or nothing according
to the adjoint flag and control presence, and with controls present a
single aggregate control-register value is prepended to the original
arguments. -/
def specApplyRewrite (a : ApplySite) : DirectCall :=
  ⟨(if a.isAdj = true ∧ a.controls ≠ [] then a.callee ++ ".adj.ctrl"
    else if a.isAdj = true ∧ a.controls = [] then a.callee ++ ".adj"
    else if a.isAdj = false ∧ a.controls ≠ [] then a.callee ++ ".ctrl"
    else a.callee),
   if a.controls ≠ [] then
     CallArg.concatReg a.controls :: a.args.map CallArg.plain
   else a.args.map CallArg.plain⟩

/-- Claim C7: every apply site becomes a direct call whose callee name
follows the exact mangling rule implied by its adjoint flag and control
presence, with the controls concatenated into one aggregate prepended
before the original arguments when present. -/
theorem applyRewrite_matches_spec (a : ApplySite) :
    applyOpPatternRewrite a = specApplyRewrite a := by
  unfold applyOpPatternRewrite specApplyRewrite getVariantFunctionName
    getAdjCtrlVariantFunctionName getAdjVariantFunctionName getCtrlVariantFunctionName
  rcases a with ⟨callee, adj, controls, args⟩
  cases adj <;> cases controls <;> simp

/-! ## Claim C10: the variant-requirement analysis -/

/-- Two apply sites targeting `f`: first an adjoint-only site, then a
control-only site. -/
def c10sites : List ApplySite :=
  [⟨"f", true, [], []⟩, ⟨"f", false, [.ext 0], []⟩]

/-- Claim C10 meets a code bug (`failing_input`: the two sites of
`c10sites`): the analysis reads the previously recorded flags, sets the
new one, but stores the merge with `DenseMap::insert`, which does not
overwrite an existing entry.  The control-only site therefore leaves
`needsControlVariant` unset even though a site with controls and no
adjoint flag targets `f`, contradicting the claimed iff. -/
theorem performAnalysis_drops_later_flags :
    mapFind (performAnalysis c10sites) "f" =
      some ⟨false, true, false⟩ ∧
    ∃ s ∈ c10sites, s.callee = "f" ∧ s.isAdj = false ∧ s.controls ≠ [] := by
  constructor
  · rfl
  · exact ⟨⟨"f", false, [.ext 0], []⟩, by simp [c10sites], rfl, rfl, by simp⟩

/-! ## Claim C6: adjoint-synthesis preconditions -/

/-- Claim C6: adjoint synthesis on a kernel whose body is unstructured,
or contains a call, a callable construction or a measurement, reports
an error and signals pass failure, and the module symbol list is left
without any new variant symbol. -/
theorem adjoint_preconditions_fail (σ : Nat → ExtDef) (fuel : Nat) (m : List MFunc)
    (f : MFunc)
    (h : regionHasUnstructuredControlFlow σ f.body = true ∨ hasCallOp f.body = true ∨
         hasCallableOp f.body = true ∨ hasMeasureOp f.body = true) :
    ∃ e, createAdjointVariantOf σ fuel (getAdjVariantFunctionName f.name) f =
        .error e ∧
      moduleAddAdjoint σ fuel m f = (m, some e) := by
  have key : ∃ e, createAdjointVariantOf σ fuel (getAdjVariantFunctionName f.name) f =
      Except.error e := by
    unfold createAdjointVariantOf
    cases hU : regionHasUnstructuredControlFlow σ f.body with
    | true =>
        exact ⟨"cannot make adjoint of kernel with unstructured control flow",
          by simp [hU]⟩
    | false =>
        cases hC : hasCallOp f.body with
        | true => exact ⟨"cannot make adjoint of kernel with calls", by simp [hU, hC]⟩
        | false =>
            cases hL : hasCallableOp f.body with
            | true =>
                exact ⟨"cannot make adjoint of kernel with callable expressions",
                  by simp [hU, hC, hL]⟩
            | false =>
                cases hM : hasMeasureOp f.body with
                | true =>
                    exact ⟨"cannot make adjoint of kernel with a measurement",
                      by simp [hU, hC, hL, hM]⟩
                | false =>
                    rcases h with h | h | h | h <;> simp_all
  obtain ⟨e, he⟩ := key
  exact ⟨e, he, by unfold moduleAddAdjoint; rw [he]⟩

/-- A kernel whose body consists of one call and a return-like
terminator. -/
def callKernel : MFunc :=
  ⟨"k", [], .mk [.mk 0 [.callOp "g" [], .contOp []]]⟩

theorem adjoint_preconditions_fail_witness :
    (regionHasUnstructuredControlFlow sigma0 callKernel.body = true ∨
       hasCallOp callKernel.body = true ∨ hasCallableOp callKernel.body = true ∨
       hasMeasureOp callKernel.body = true) ∧
    ∃ e, createAdjointVariantOf sigma0 9 (getAdjVariantFunctionName callKernel.name)
          callKernel = .error e ∧
      moduleAddAdjoint sigma0 9 [callKernel] callKernel = ([callKernel], some e) :=
  ⟨Or.inr (Or.inl rfl),
   adjoint_preconditions_fail sigma0 9 [callKernel] callKernel (Or.inr (Or.inl rfl))⟩

/-! ## Claim C9: the counted-loop recognizer -/

/-- Claim C9: the recognizer returns false for post-conditional loops
and loops without a step region; acceptance requires the body region to
be exactly one block ending in a continue terminator; under the
structural prerequisites the verdict is exactly the disjunction of the
memory-domain and value-domain matchers; and those two matchers never
both accept the same loop. -/
theorem countedLoop_recognizer_characterization :
    (∀ (σ : Nat → ExtDef) (post : Bool) (init : List MVal) (wr br sr : MRegion),
        post = true ∨ hasStepRegion sr = false →
        isaCountedLoop σ (.loop post init wr br sr) = false) ∧
    (∀ (σ : Nat → ExtDef) (op : MOp), isaCountedLoop σ op = true →
        ∃ post init wr br sr bb rs, op = .loop post init wr br sr ∧
          br.blocks = [bb] ∧ bb.ops.getLast? = some (.contOp rs)) ∧
    (∀ (σ : Nat → ExtDef) (post : Bool) (init : List MVal) (wr br sr : MRegion)
        (bb : MBlock) (rs : List MVal), post = false → hasStepRegion sr = true →
        br.blocks = [bb] → bb.ops.getLast? = some (.contOp rs) →
        isaCountedLoop σ (.loop post init wr br sr) =
          (hasMonotonicLCV σ (.loop post init wr br sr) ||
           hasMonotonicPHIControl (.loop post init wr br sr))) ∧
    (∀ (σ : Nat → ExtDef) (op : MOp),
        ¬(hasMonotonicLCV σ op = true ∧ hasMonotonicPHIControl op = true)) := by
  refine ⟨?_, ?_, ?_, ?_⟩
  · intro σ post init wr br sr h
    rcases h with h | h <;> simp [isaCountedLoop, h]
  · intro σ op h
    match op with
    | .loop post init wr br sr =>
        rw [isaCountedLoop] at h
        by_cases hpost : (post || !hasStepRegion sr) = true
        · rw [if_pos hpost] at h; simp at h
        · rw [if_neg hpost] at h
          rcases hbr : br.blocks with _ | ⟨bb, rest⟩
          · rw [hbr] at h; simp at h
          · rcases rest with _ | ⟨b2, rest2⟩
            · rw [hbr] at h
              simp only [Bool.and_eq_true] at h
              obtain ⟨rs, hlast⟩ := (endsInContinue_iff bb.ops).mp h.1
              exact ⟨post, init, wr, br, sr, bb, rs, rfl, hbr, hlast⟩
            · rw [hbr] at h; simp at h
  · intro σ post init wr br sr bb rs hp hs hbr hlast
    subst hp
    rw [isaCountedLoop, hbr]
    simp [hs, hasMonotonicControlInduction, endsInContinue, hlast]
  · intro σ op h
    obtain ⟨h1, h2⟩ := h
    match op with
    | .loop post init wr br sr =>
        rw [hasMonotonicPHIControl] at h2
        rw [hasMonotonicLCV] at h1
        by_cases hi : init.isEmpty
        · simp [hi] at h2
        · simp only [loopResultCount] at h1 h2
          have hne : init.length ≠ 0 := by
            cases init with
            | nil => simp at hi
            | cons a l => simp
          simp [hi, hne] at h1
    | .constI w v => simp [hasMonotonicLCV] at h1
    | .addi w a b => simp [hasMonotonicLCV] at h1
    | .subi w a b => simp [hasMonotonicLCV] at h1
    | .muli w a b => simp [hasMonotonicLCV] at h1
    | .divsi w a b => simp [hasMonotonicLCV] at h1
    | .cmpi p w a b => simp [hasMonotonicLCV] at h1
    | .selectOp w c a b => simp [hasMonotonicLCV] at h1
    | .negf a => simp [hasMonotonicLCV] at h1
    | .load m => simp [hasMonotonicLCV] at h1
    | .store v m => simp [hasMonotonicLCV] at h1
    | .alloca sc ie => simp [hasMonotonicLCV] at h1
    | .condOp c rs => simp [hasMonotonicLCV] at h1
    | .contOp rs => simp [hasMonotonicLCV] at h1
    | .ifOp c tr er => simp [hasMonotonicLCV] at h1
    | .scope r => simp [hasMonotonicLCV] at h1
    | .lambda r => simp [hasMonotonicLCV] at h1
    | .quantum hm a s0 s1 s2 o => simp [hasMonotonicLCV] at h1
    | .callOp n args => simp [hasMonotonicLCV] at h1
    | .measure t => simp [hasMonotonicLCV] at h1
    | .unknown o rgs => simp [hasMonotonicLCV] at h1

/-- A post-conditional loop with otherwise plausible structure, and the
memory-domain counted loop used throughout, instantiating the parts of
the recognizer characterization. -/
def memLoopF : MOp :=
  .loop false []
    (.mk [.mk 0 [.load (.ext 0), .cmpi .slt 32 (.res 0) (.ext 1),
                 .condOp (.res 1) []]])
    (.mk [.mk 0 [.contOp []]])
    (.mk [.mk 0 [.load (.ext 0), .addi 32 (.res 0) (.ext 2),
                 .store (.res 1) (.ext 0), .contOp []]])

theorem countedLoop_recognizer_witness :
    isaCountedLoop sigma0
        (.loop true [] (.mk []) (.mk [.mk 0 [.contOp []]]) (.mk [])) = false ∧
    isaCountedLoop sigma0 memLoopF =
      (hasMonotonicLCV sigma0 memLoopF || hasMonotonicPHIControl memLoopF) ∧
    ¬(hasMonotonicLCV sigma0 memLoopF = true ∧
      hasMonotonicPHIControl memLoopF = true) :=
  ⟨countedLoop_recognizer_characterization.1 sigma0 true [] (.mk [])
      (.mk [.mk 0 [.contOp []]]) (.mk []) (Or.inl rfl),
   countedLoop_recognizer_characterization.2.2.1 sigma0 false []
      (.mk [.mk 0 [.load (.ext 0), .cmpi .slt 32 (.res 0) (.ext 1),
                   .condOp (.res 1) []]])
      (.mk [.mk 0 [.contOp []]])
      (.mk [.mk 0 [.load (.ext 0), .addi 32 (.res 0) (.ext 2),
                   .store (.res 1) (.ext 0), .contOp []]])
      (.mk 0 [.contOp []]) [] rfl rfl rfl rfl,
   countedLoop_recognizer_characterization.2.2.2 sigma0 memLoopF⟩

/-! ## Claim C4: the structured-control-flow classifier -/

theorem opUnstructured_false_iff (σ : Nat → ExtDef) (op : MOp) :
    opUnstructured σ op = false ↔
      (op.numRegions ≠ 0 →
        ((op.isIf = true ∨ isaCountedLoop σ op = true ∨ op.numRegions ≤ 1) ∧
         ∀ sub ∈ op.regions, regionHasUnstructuredControlFlow σ sub = false)) := by
  cases op with
  | loop post init wr br sr =>
      simp only [opUnstructured, MOp.numRegions, MOp.regions, MOp.isIf,
        Bool.or_eq_false_iff]
      constructor
      · rintro ⟨hc, ⟨ha, hb⟩, hd⟩ _
        refine ⟨Or.inr (Or.inl (by simpa using hc)), ?_⟩
        intro sub hsub
        simp only [List.mem_cons, List.not_mem_nil, or_false] at hsub
        rcases hsub with rfl | rfl | rfl
        exacts [ha, hb, hd]
      · intro h
        obtain ⟨hd, hsub⟩ := h (by simp)
        have hc : isaCountedLoop σ (.loop post init wr br sr) = true := by
          rcases hd with hd | hd | hd
          · exact absurd hd (by simp)
          · exact hd
          · exact absurd hd (by simp)
        exact ⟨by simp [hc], ⟨hsub wr (by simp), hsub br (by simp)⟩, hsub sr (by simp)⟩
  | ifOp c tr er =>
      simp only [opUnstructured, MOp.numRegions, MOp.regions, MOp.isIf,
        Bool.or_eq_false_iff]
      constructor
      · rintro ⟨h1, h2⟩ _
        refine ⟨Or.inl (by simp), ?_⟩
        intro sub hsub
        simp only [List.mem_cons, List.not_mem_nil, or_false] at hsub
        rcases hsub with rfl | rfl
        exacts [h1, h2]
      · intro h
        obtain ⟨_, hsub⟩ := h (by simp)
        exact ⟨hsub tr (by simp), hsub er (by simp)⟩
  | scope r =>
      simp only [opUnstructured, MOp.numRegions, MOp.regions, MOp.isIf]
      constructor
      · intro h _
        refine ⟨Or.inr (Or.inr (by simp)), ?_⟩
        intro sub hsub
        simp only [List.mem_singleton] at hsub
        rwa [hsub]
      · intro h
        obtain ⟨_, hsub⟩ := h (by simp)
        exact hsub r (by simp)
  | lambda r =>
      simp only [opUnstructured, MOp.numRegions, MOp.regions, MOp.isIf]
      constructor
      · intro h _
        refine ⟨Or.inr (Or.inr (by simp)), ?_⟩
        intro sub hsub
        simp only [List.mem_singleton] at hsub
        rwa [hsub]
      · intro h
        obtain ⟨_, hsub⟩ := h (by simp)
        exact hsub r (by simp)
  | unknown o rs =>
      simp only [opUnstructured, MOp.numRegions, MOp.regions, MOp.isIf,
        Bool.or_eq_false_iff, decide_eq_false_iff_not, not_lt]
      have hreg : ∀ l : List MRegion, regionsHaveUnstructured σ l = false ↔
          ∀ sub ∈ l, regionHasUnstructuredControlFlow σ sub = false := by
        intro l
        induction l with
        | nil => simp [regionsHaveUnstructured]
        | cons r rest ih =>
            simp [regionsHaveUnstructured, ih]
      cases rs with
      | nil => simp [regionsHaveUnstructured]
      | cons r rest =>
          simp only [hreg, ne_eq, List.length_cons, isaCountedLoop]
          constructor
          · rintro ⟨h1, h2⟩ _
            exact ⟨Or.inr (Or.inr (by omega)), h2⟩
          · intro h
            obtain ⟨hd, hsub⟩ := h (by simp)
            refine ⟨?_, hsub⟩
            rcases hd with hd | hd | hd
            · simp at hd
            · simp at hd
            · omega
  | constI w v => simp [opUnstructured, MOp.numRegions, MOp.regions]
  | addi w a b => simp [opUnstructured, MOp.numRegions, MOp.regions]
  | subi w a b => simp [opUnstructured, MOp.numRegions, MOp.regions]
  | muli w a b => simp [opUnstructured, MOp.numRegions, MOp.regions]
  | divsi w a b => simp [opUnstructured, MOp.numRegions, MOp.regions]
  | cmpi p w a b => simp [opUnstructured, MOp.numRegions, MOp.regions]
  | selectOp w c a b => simp [opUnstructured, MOp.numRegions, MOp.regions]
  | negf a => simp [opUnstructured, MOp.numRegions, MOp.regions]
  | load m => simp [opUnstructured, MOp.numRegions, MOp.regions]
  | store v m => simp [opUnstructured, MOp.numRegions, MOp.regions]
  | alloca sc ie => simp [opUnstructured, MOp.numRegions, MOp.regions]
  | condOp c rs => simp [opUnstructured, MOp.numRegions, MOp.regions]
  | contOp rs => simp [opUnstructured, MOp.numRegions, MOp.regions]
  | quantum hm a s0 s1 s2 o => simp [opUnstructured, MOp.numRegions, MOp.regions]
  | callOp n args => simp [opUnstructured, MOp.numRegions, MOp.regions]
  | measure t => simp [opUnstructured, MOp.numRegions, MOp.regions]

theorem opsHaveUnstructured_false_iff (σ : Nat → ExtDef) (ops : List MOp) :
    opsHaveUnstructured σ ops = false ↔ ∀ op ∈ ops, opUnstructured σ op = false := by
  induction ops with
  | nil => simp [opsHaveUnstructured]
  | cons op rest ih => simp [opsHaveUnstructured, ih]

/-- Claim C4: the classifier reports a zero-block region as structured,
a multi-block region as unstructured, and a single-block region as
structured iff every region-bearing op in the block is an if-construct,
a qualifying counted loop, or has at most one region, with every
sub-region of every region-bearing op recursively structured. -/
theorem classifier_characterization (σ : Nat → ExtDef) :
    (∀ r : MRegion, r.blocks = [] → regionHasUnstructuredControlFlow σ r = false) ∧
    (∀ r : MRegion, 1 < r.blocks.length →
        regionHasUnstructuredControlFlow σ r = true) ∧
    (∀ (r : MRegion) (b : MBlock), r.blocks = [b] →
        (regionHasUnstructuredControlFlow σ r = false ↔
          ∀ op ∈ b.ops, op.numRegions ≠ 0 →
            ((op.isIf = true ∨ isaCountedLoop σ op = true ∨ op.numRegions ≤ 1) ∧
             ∀ sub ∈ op.regions,
               regionHasUnstructuredControlFlow σ sub = false))) := by
  refine ⟨?_, ?_, ?_⟩
  · rintro ⟨bs⟩ h
    simp only [MRegion.blocks] at h
    subst h
    rfl
  · rintro ⟨bs⟩ h
    simp only [MRegion.blocks] at h
    rcases bs with _ | ⟨b1, _ | ⟨b2, rest⟩⟩
    · simp at h
    · simp at h
    · rcases b1 with ⟨n1, ops1⟩
      rfl
  · rintro ⟨bs⟩ b h
    simp only [MRegion.blocks] at h
    subst h
    rcases b with ⟨n, ops⟩
    rw [show regionHasUnstructuredControlFlow σ (.mk [.mk n ops]) =
          opsHaveUnstructured σ ops from rfl,
        opsHaveUnstructured_false_iff]
    simp only [MBlock.ops]
    exact forall_congr' fun op => forall_congr' fun _ => opUnstructured_false_iff σ op

theorem classifier_characterization_witness :
    regionHasUnstructuredControlFlow sigma0 (.mk []) = false ∧
    regionHasUnstructuredControlFlow sigma0
      (.mk [.mk 0 [.contOp []], .mk 0 [.contOp []]]) = true ∧
    (regionHasUnstructuredControlFlow sigma0
        (.mk [.mk 0 [memLoopF, .contOp []]]) = false ↔
      ∀ op ∈ [memLoopF, MOp.contOp []], op.numRegions ≠ 0 →
        ((op.isIf = true ∨ isaCountedLoop sigma0 op = true ∨ op.numRegions ≤ 1) ∧
         ∀ sub ∈ op.regions,
           regionHasUnstructuredControlFlow sigma0 sub = false)) :=
  ⟨(classifier_characterization sigma0).1 (.mk []) rfl,
   (classifier_characterization sigma0).2.1
     (.mk [.mk 0 [.contOp []], .mk 0 [.contOp []]]) (by simp [MRegion.blocks]),
   (classifier_characterization sigma0).2.2 (.mk [.mk 0 [memLoopF, .contOp []]])
     (.mk 0 [memLoopF, .contOp []]) rfl⟩

/-! ## Claim C3: the reversal of primitive gate operations -/

/-- A self-adjoint (Hermitian), non-parametrized primitive gate: empty
first operand segment and the `Hermitian` trait. -/
def isHermNonParam (op : MOp) : Prop :=
  ∃ a s1 s2 o, op = .quantum true a 0 s1 s2 o

theorem opsAnyOp_false_iff (p : MOp → Bool) (l : List MOp) :
    opsAnyOp p l = false ↔ ∀ op ∈ l, opAnyOp p op = false := by
  induction l with
  | nil => simp [opsAnyOp]
  | cons op rest ih => simp [opsAnyOp, ih]

theorem processInv_herm (σ : Nat → ExtDef) (l : List MOp) :
    ∀ (fuel base : Nat), (∀ op ∈ l, isHermNonParam op) → l.length < fuel →
      processInv σ fuel base l = some l := by
  induction l with
  | nil =>
      intro fuel base _ hf
      match fuel with
      | 0 => omega
      | fuel + 1 => rfl
  | cons op rest ih =>
      intro fuel base h hf
      match fuel with
      | 0 => omega
      | fuel + 1 =>
          obtain ⟨a, s1, s2, o, rfl⟩ := h op (by simp)
          have hfuel : rest.length < fuel := by
            simp at hf
            omega
          have h1 : processOne σ fuel base (.quantum true a 0 s1 s2 o) =
              some [.quantum true a 0 s1 s2 o] := by
            match fuel, hfuel with
            | g + 1, _ => simp [processOne]
          rw [processInv, h1]
          simp only [Option.bind_eq_bind, Option.some_bind, List.length_cons,
            List.length_nil, Nat.zero_add]
          rw [ih fuel (base + 1) (fun x hx => h x (by simp [hx])) hfuel]
          rfl

theorem revBlock_herm (σ : Nat → ExtDef) (fuel n : Nat) (ops : List MOp)
    (tr : List MVal) (hAll : ∀ op ∈ ops, isHermNonParam op)
    (hf : ops.length < fuel) :
    revBlock σ (fuel + 1) (.mk n (ops ++ [.contOp tr])) =
      some (.mk n (ops.reverse ++ [.contOp tr])) := by
  have hq : ∀ op ∈ ops, opHasQuantumChar op = true := by
    intro op hop
    obtain ⟨a, s1, s2, o, rfl⟩ := hAll op hop
    rfl
  have hkeep : ops.filter (fun op => !opHasQuantumChar op) = [] := by
    rw [List.filter_eq_nil]
    intro op hop
    simp [hq op hop]
  have hinv : getOpsToInvert ops = ops := by
    unfold getOpsToInvert
    rw [List.filter_eq_self]
    exact hq
  have hpi : processInv σ fuel 0 ops.reverse = some ops.reverse :=
    processInv_herm σ ops.reverse fuel 0
      (by intro op hop; exact hAll op (List.mem_reverse.mp hop))
      (by simpa using hf)
  rw [revBlock]
  rw [List.getLast?_concat, List.dropLast_concat]
  simp only [hkeep, hinv, List.length_nil, hpi, Option.bind_eq_bind,
    Option.some_bind, List.nil_append]

/-- Claim C3: in adjoint synthesis a primitive gate's handling
negates each first-segment (floating-point) operand through a fresh
negation feeding the remapped clone, and toggles the is-adjoint marker
exactly when there was no such operand and the op lacks the
self-adjoint trait; consequently a kernel of only self-adjoint,
non-parametrized primitives synthesizes to the identical ops in exactly
reversed order, with no negations and no toggles. -/
theorem adjoint_gate_handling
    (σ : Nat → ExtDef) (fuel base : Nat) (herm adj : Bool) (s0 s1 s2 : Nat)
    (opnds : List MVal) (nm fname : String) (ps : List MType) (n : Nat)
    (ops : List MOp) (tr : List MVal)
    (hAll : ∀ op ∈ ops, isHermNonParam op) (hf : ops.length < fuel) :
    processOne σ (fuel + 1) base (.quantum herm adj s0 s1 s2 opnds) =
      some ((opnds.take s0).map MOp.negf ++
        [.quantum herm
          (if opnds.take s0 = [] ∧ herm = false then !adj else adj)
          s0 s1 s2
          ((List.range (opnds.take s0).length).map (fun k => MVal.res (base + k)) ++
           opnds.drop s0)]) ∧
    createAdjointVariantOf σ (fuel + 1) nm
        ⟨fname, ps, .mk [.mk n (ops ++ [.contOp tr])]⟩ =
      .ok ⟨nm, ps, .mk [.mk n (ops.reverse ++ [.contOp tr])]⟩ := by
  constructor
  · rw [processOne]
    have : (if !herm && (opnds.take s0).isEmpty then !adj else adj) =
        (if opnds.take s0 = [] ∧ herm = false then !adj else adj) := by
      cases herm <;> cases htk : opnds.take s0 <;> simp [htk]
    rw [this]
  · have hflat : ∀ op ∈ ops ++ [MOp.contOp tr],
        (opAnyOp (fun op => match op with | .callOp _ _ => true | _ => false) op
          = false) ∧
        (opAnyOp (fun op => match op with | .measure _ => true | _ => false) op
          = false) ∧
        (opAnyOp (fun op => match op with | .lambda _ => true | _ => false) op
          = false) ∧
        opUnstructured σ op = false := by
      intro op hop
      rcases List.mem_append.mp hop with hop | hop
      · obtain ⟨a, u1, u2, o, rfl⟩ := hAll op hop
        exact ⟨rfl, rfl, rfl, rfl⟩
      · simp only [List.mem_singleton] at hop
        subst hop
        exact ⟨rfl, rfl, rfl, rfl⟩
    have hbody : ∀ (p : MOp → Bool),
        (∀ op ∈ ops ++ [MOp.contOp tr], opAnyOp p op = false) →
        regionAnyOp p (.mk [.mk n (ops ++ [.contOp tr])]) = false := by
      intro p hp
      show blocksAnyOp p [.mk n (ops ++ [.contOp tr])] = false
      have : opsAnyOp p (ops ++ [.contOp tr]) = false :=
        (opsAnyOp_false_iff p _).mpr hp
      simp [blocksAnyOp, blockAnyOp, this]
    have hstr : regionHasUnstructuredControlFlow σ
        (.mk [.mk n (ops ++ [.contOp tr])]) = false := by
      rw [show regionHasUnstructuredControlFlow σ
            (.mk [.mk n (ops ++ [.contOp tr])]) =
          opsHaveUnstructured σ (ops ++ [.contOp tr]) from rfl]
      exact (opsHaveUnstructured_false_iff σ _).mpr
        fun op hop => (hflat op hop).2.2.2
    have hcall : hasCallOp (.mk [.mk n (ops ++ [.contOp tr])]) = false :=
      hbody _ fun op hop => (hflat op hop).1
    have hlam : hasCallableOp (.mk [.mk n (ops ++ [.contOp tr])]) = false :=
      hbody _ fun op hop => (hflat op hop).2.2.1
    have hmeas : hasMeasureOp (.mk [.mk n (ops ++ [.contOp tr])]) = false :=
      hbody _ fun op hop => (hflat op hop).2.1
    have hrev := revBlock_herm σ fuel n ops tr hAll hf
    simp only [createAdjointVariantOf, hstr, hcall, hlam, hmeas, MRegion.blocks,
      Bool.false_eq_true, if_false, hrev]

theorem adjoint_gate_handling_witness :
    processOne sigma0 9 0 (.quantum false false 1 0 1 [.ext 5, .ext 6]) =
      some [.negf (.ext 5), .quantum false false 1 0 1 [.res 0, .ext 6]] ∧
    createAdjointVariantOf sigma0 9 "k.adj"
        ⟨"k", [], .mk [.mk 0
          ([.quantum true false 0 0 1 [.ext 5],
            .quantum true true 0 1 1 [.ext 6, .ext 7]] ++ [.contOp []])]⟩ =
      .ok ⟨"k.adj", [], .mk [.mk 0
        ([.quantum true true 0 1 1 [.ext 6, .ext 7],
          .quantum true false 0 0 1 [.ext 5]] ++ [.contOp []])]⟩ := by
  have h := adjoint_gate_handling sigma0 8 0 false false 1 0 1 [.ext 5, .ext 6]
    "k.adj" "k" [] 0
    [.quantum true false 0 0 1 [.ext 5], .quantum true true 0 1 1 [.ext 6, .ext 7]]
    []
    (by
      intro op hop
      rcases List.mem_cons.mp hop with rfl | hop
      · exact ⟨false, 0, 1, [.ext 5], rfl⟩
      · rcases List.mem_singleton.mp hop with rfl
        exact ⟨true, 1, 1, [.ext 6, .ext 7], rfl⟩)
    (by simp)
  refine ⟨?_, h.2⟩
  rw [h.1]
  simp [List.range_succ]

/-! ## Claim C8: the control variant -/

theorem ctrlOps_eq_map (top : Bool) (l : List MOp) :
    ctrlOps top l = l.map (ctrlOp top) := by
  induction l with
  | nil => rfl
  | cons op rest ih => simp [ctrlOps, ih]

theorem ctrlBlocks_eq_map (l : List MBlock) : ctrlBlocks l = l.map ctrlBlock := by
  induction l with
  | nil => rfl
  | cons b rest ih => simp [ctrlBlocks, ih]

/-- Claim C8: the control-variant synthesizer clones the kernel under
the `.ctrl` name with one new qubit-register parameter prepended
(inserted as entry-block argument 0, which renames the pre-existing
arguments while preserving their identity), walks every op, and for
each op carrying the primitive-gate trait inserts the new parameter at
the boundary between the first operand segment and the control segment,
incrementing the recorded control-segment size by exactly one and
leaving the other two segment sizes and all other operands unchanged
(up to the identity-preserving renaming). -/
theorem controlVariant_characterization
    (nm : String) (ps : List MType) (n : Nat) (ops : List MOp)
    (rest : List MBlock) :
    createControlVariantOf ⟨nm, ps, .mk (.mk n ops :: rest)⟩ =
      ⟨nm ++ ".ctrl", .qvec :: ps,
       .mk (.mk (n + 1) (ops.map (ctrlOp true)) :: rest.map ctrlBlock)⟩ ∧
    (∀ (top herm adj : Bool) (s0 s1 s2 : Nat) (o : List MVal),
        ctrlOp top (.quantum herm adj s0 s1 s2 o) =
          .quantum herm adj s0 (s1 + 1) s2
            ((o.map (ctrlRename top)).take s0 ++
             ctrlValue top :: (o.map (ctrlRename top)).drop s0)) := by
  constructor
  · simp [createControlVariantOf, getCtrlVariantFunctionName, ctrlOps_eq_map,
      ctrlBlocks_eq_map]
  · intro top herm adj s0 s1 s2 o
    simp [ctrlOp]

/-! ## Claim C5: the memory-domain induction matcher -/

/-- Stated from the wording of claim C5: a store qualifies when its
target is a candidate comparison-temporary cell and its stored value is
an integer add-or-subtract having among its operands a load of that
same cell. -/
def isClaimMatchingStore (temps : List CellRef) (ops : List MOp) : MOp → Bool
  | .store v m =>
      match matchTarget temps m with
      | some i =>
          match getDef ops v with
          | some d =>
              d.isAddSub && d.operands.any (fun o =>
                match getDef ops o with
                | some (.load (.ext i2)) => i2 = i
                | _ => false)
          | none => false
      | none => false
  | _ => false

/-- Stated from the wording of claim C5: the matcher accepts iff, among
the stores of the step block, exactly one qualifies. -/
def specC5Accept (σ : Nat → ExtDef) : MOp → Bool
  | .loop _ _ wr _ sr =>
      match wr.blocks.getLast?, sr.blocks.getLast? with
      | some wb, some sb =>
          match comparisonTempsOf σ wb with
          | some (_, temps) =>
              (sb.ops.filter (isClaimMatchingStore temps sb.ops)).length == 1
          | none => false
      | _, _ => false
  | _ => false

/-- A loop whose single step-region store writes `load c + load c` to
the cell `c`: exactly one store qualifies in the claim's sense, but the
source counts one match per (store, operand) pair, counts two, and
rejects. -/
def dblLoopF : MOp :=
  .loop false []
    (.mk [.mk 0 [.load (.ext 0), .cmpi .slt 32 (.res 0) (.ext 1),
                 .condOp (.res 1) []]])
    (.mk [.mk 0 [.contOp []]])
    (.mk [.mk 0 [.load (.ext 0), .addi 32 (.res 0) (.res 0),
                 .store (.res 1) (.ext 0), .contOp []]])

/-- Claim C5 as stated is false at `dblLoopF`: the loop has exactly one
store qualifying in the claim's sense, yet the matcher rejects it
(the source increments its counter once per matching operand of the
stored add, so this store counts twice). -/
theorem memory_matcher_counterexample :
    hasMonotonicLCV sigma0 dblLoopF = false ∧
    specC5Accept sigma0 dblLoopF = true := by
  constructor <;> rfl

/-- The per-operand count of one (store, operand) pair in the claim's
terms: the number of operands of the stored add-or-subtract that load
the stored-to cell. -/
def claimPairCount (temps : List CellRef) (ops : List MOp) : Nat :=
  (ops.map (fun op =>
    match op with
    | .store v m =>
        match matchTarget temps m with
        | some i =>
            match getDef ops v with
            | some d =>
                if d.isAddSub then
                  (d.operands.filter (fun o =>
                    match getDef ops o with
                    | some (.load (.ext i2)) => i2 = i
                    | _ => false)).length
                else 0
            | none => 0
        | none => 0
    | _ => 0)).sum

theorem foldl_add_eq_sum {α : Type} (g : α → Nat) (l : List α) :
    ∀ init : Nat, l.foldl (fun acc o => acc + g o) init = init + (l.map g).sum := by
  induction l with
  | nil => intro init; simp
  | cons a rest ih =>
      intro init
      simp [ih]
      omega

theorem sum_map_ite_eq_countP {α : Type} (p : α → Bool) (l : List α) :
    (l.map (fun o => if p o = true then 1 else 0)).sum = l.countP p := by
  induction l with
  | nil => rfl
  | cons x rest ih =>
      by_cases hx : p x = true <;> simp [List.countP_cons, hx, ih] <;> omega

theorem storeMatchCount_eq_claim (σ : Nat → ExtDef) (temps : List CellRef)
    (stepOps : List MOp) (op : MOp) :
    storeMatchCount σ temps stepOps op =
      (fun op =>
        match op with
        | MOp.store v m =>
            match matchTarget temps m with
            | some i =>
                match getDef stepOps v with
                | some d =>
                    if d.isAddSub then
                      (d.operands.filter (fun o =>
                        match getDef stepOps o with
                        | some (.load (.ext i2)) => i2 = i
                        | _ => false)).length
                    else 0
                | none => 0
            | none => 0
        | _ => 0) op := by
  cases op with
  | store v m =>
      show storeMatchCount σ temps stepOps (.store v m) =
        (match matchTarget temps m with
         | some i =>
             match getDef stepOps v with
             | some d =>
                 if d.isAddSub then
                   (d.operands.filter (fun o =>
                     match getDef stepOps o with
                     | some (.load (.ext i2)) => i2 = i
                     | _ => false)).length
                 else 0
             | none => 0
         | none => 0)
      rw [storeMatchCount]
      cases hmt : matchTarget temps m with
      | none => rfl
      | some i =>
          cases hd : getDef stepOps v with
          | none => rfl
          | some d =>
              by_cases ha : d.isAddSub = true
              · have hpoint : ∀ o : MVal,
                    (match getDef stepOps o with
                     | some (.load m2) =>
                         match m2 with
                         | MVal.ext i2 => if i2 = i then 1 else 0
                         | _ => 0
                     | _ => 0) =
                    (if (match getDef stepOps o with
                         | some (.load (.ext i2)) => (i2 = i : Bool)
                         | _ => false) = true then 1 else 0) := by
                  intro o
                  cases hx : getDef stepOps o with
                  | none => rfl
                  | some dx =>
                      cases dx <;> try rfl
                      rename_i m2
                      cases m2 <;> try rfl
                      rename_i ii
                      by_cases hii : ii = i <;> simp [hii]
                simp only [ha, if_true]
                rw [foldl_add_eq_sum, Nat.zero_add]
                rw [List.map_congr_left (fun o _ => hpoint o)]
                rw [sum_map_ite_eq_countP]
                rw [List.countP_eq_length_filter]
              · simp only [Bool.not_eq_true] at ha
                simp [ha]
  | constI w v => rfl
  | addi w a b => rfl
  | subi w a b => rfl
  | muli w a b => rfl
  | divsi w a b => rfl
  | cmpi p w a b => rfl
  | selectOp w c a b => rfl
  | negf a => rfl
  | load m => rfl
  | alloca sc ie => rfl
  | condOp c rs => rfl
  | contOp rs => rfl
  | loop post init wr br sr => rfl
  | ifOp c tr er => rfl
  | scope r => rfl
  | lambda r => rfl
  | quantum hm a s0 s1 s2 o => rfl
  | callOp n args => rfl
  | measure t => rfl
  | unknown o rs => rfl

theorem reverse_fold_eq_claimPairCount (σ : Nat → ExtDef) (temps : List CellRef)
    (sb : MBlock) :
    (sb.ops.reverse.foldl (fun acc op => acc + storeMatchCount σ temps sb.ops op) 0)
      = claimPairCount temps sb.ops := by
  rw [foldl_add_eq_sum, Nat.zero_add, claimPairCount]
  have : sb.ops.reverse.map (storeMatchCount σ temps sb.ops) =
      (sb.ops.map (storeMatchCount σ temps sb.ops)).reverse := by
    rw [List.map_reverse]
  rw [this, List.sum_reverse]
  congr 1
  exact List.map_congr_left fun op _ => storeMatchCount_eq_claim σ temps sb.ops op

/-- Claim C5 amended: the matcher accepts a loop iff (a) the loop does
not both carry init args and produce results, (b) the while region's
last block ends in a `cc.condition` whose condition value is defined in
that block by an integer comparison, (c) the step region has a last
block, and (d) counting one match per pair of a store to a candidate
cell and an operand of its stored add-or-subtract that loads that same
cell, the count over the step block is exactly one (so a qualifying
store whose add has two such loads counts twice and disqualifies). -/
theorem memory_matcher_characterization (σ : Nat → ExtDef) (post : Bool)
    (init : List MVal) (wr br sr : MRegion) :
    hasMonotonicLCV σ (.loop post init wr br sr) = true ↔
      (init = [] ∨ loopResultCount init = 0) ∧
      ∃ wb, wr.blocks.getLast? = some wb ∧
      ∃ cmp temps, comparisonTempsOf σ wb = some (cmp, temps) ∧
      (∃ p w a b, cmp = .cmpi p w a b) ∧
      ∃ sb, sr.blocks.getLast? = some sb ∧
      claimPairCount temps sb.ops = 1 := by
  rw [hasMonotonicLCV]
  by_cases hinit : (!init.isEmpty && !(loopResultCount init == 0)) = true
  · rw [if_pos hinit]
    simp only [Bool.and_eq_true, Bool.not_eq_true', Bool.not_eq_false] at hinit
    constructor
    · intro h; exact absurd h (by simp)
    · rintro ⟨hempty, _⟩
      exfalso
      rcases hempty with hempty | hempty
      · subst hempty; simp at hinit
      · simp only [loopResultCount] at hempty
        rcases init with _ | ⟨a, l⟩
        · simp at hinit
        · simp at hempty
  · rw [if_neg hinit]
    have hempty : init = [] ∨ loopResultCount init = 0 := by
      rcases init with _ | ⟨a, l⟩
      · exact Or.inl rfl
      · exfalso
        apply hinit
        simp [loopResultCount]
    cases hwb : wr.blocks.getLast? with
    | none =>
        constructor
        · intro h; exact absurd h (by simp)
        · rintro ⟨_, wb2, hwb2, _⟩; exact absurd hwb2 (by simp)
    | some wb =>
        cases hct : comparisonTempsOf σ wb with
        | none =>
            constructor
            · intro h; simp [hct] at h
            · rintro ⟨_, wb2, hwb2, cmp2, temps2, hct2, _⟩
              obtain rfl : wb = wb2 := Option.some_inj.mp hwb2
              rw [hct] at hct2
              exact absurd hct2 (by simp)
        | some pr =>
            obtain ⟨cmp, temps⟩ := pr
            cases cmp with
            | cmpi p w a b =>
                cases hsb : sr.blocks.getLast? with
                | none =>
                    constructor
                    · intro h; simp [hct, hsb] at h
                    · rintro ⟨_, wb2, hwb2, cmp2, temps2, hct2,
                        ⟨p2, w2, a2, b2, rfl⟩, sb2, hsb2, _⟩
                      exact absurd hsb2 (by simp)
                | some sb =>
                    simp only [hct, hsb]
                    rw [reverse_fold_eq_claimPairCount σ temps sb]
                    constructor
                    · intro h
                      refine ⟨hempty, wb, rfl, .cmpi p w a b, temps, hct,
                        ⟨p, w, a, b, rfl⟩, sb, rfl, ?_⟩
                      simpa using h
                    · rintro ⟨_, wb2, hwb2, cmp2, temps2, hct2,
                        ⟨p2, w2, a2, b2, rfl⟩, sb2, hsb2, hcnt⟩
                      obtain rfl : wb = wb2 := Option.some_inj.mp hwb2
                      obtain rfl : sb = sb2 := Option.some_inj.mp hsb2
                      rw [hct] at hct2
                      have hpair := Option.some_inj.mp hct2
                      have htemps : temps = temps2 := congrArg Prod.snd hpair
                      subst htemps
                      simp [hcnt]
            | constI w v => ?_
            | addi w a b => ?_
            | subi w a b => ?_
            | muli w a b => ?_
            | divsi w a b => ?_
            | selectOp w c a b => ?_
            | negf a => ?_
            | load m => ?_
            | store v m => ?_
            | alloca sc ie => ?_
            | condOp c rs => ?_
            | contOp rs => ?_
            | loop post2 init2 wr2 br2 sr2 => ?_
            | ifOp c tr er => ?_
            | scope r => ?_
            | lambda r => ?_
            | quantum hm ad s0 s1 s2 o => ?_
            | callOp nn args => ?_
            | measure t => ?_
            | unknown o rs => ?_
            all_goals
              constructor
            all_goals
              first
              | (intro h; simp [hct] at h; done)
              | (rintro ⟨_, wb2, hwb2, cmp2, temps2, hct2,
                   ⟨p2, w2, a2, b2, rfl⟩, sb2, hsb2, hcnt⟩
                 obtain rfl : wb = wb2 := Option.some_inj.mp hwb2
                 rw [hct] at hct2
                 have hpair := Option.some_inj.mp hct2
                 exact absurd (congrArg Prod.fst hpair) (by simp))

/-! ## Claim C1: the trip-count and new-start arithmetic -/

theorem two_pow_sub_one_lt (w : Nat) (hw : 1 ≤ w) :
    (2 : Int) ^ (w - 1) < 2 ^ w := by
  have h1 : (0 : Int) < 2 ^ (w - 1) := pow_pos (by norm_num) _
  have h2 : (2 : Int) ^ w = 2 ^ (w - 1) * 2 := by
    rw [← pow_succ]
    congr 1
    omega
  rw [h2]
  omega

theorem toSigned_zero (w : Nat) (hw : 1 ≤ w) : toSigned w 0 = 0 := by
  unfold toSigned
  have h1 : (0 : Int) ≤ 2 ^ (w - 1) := le_of_lt (pow_pos (by norm_num) _)
  rw [Int.zero_add, Int.emod_eq_of_lt h1 (two_pow_sub_one_lt w hw)]
  omega

theorem toSigned_one (w : Nat) (hw : 2 ≤ w) : toSigned w 1 = 1 := by
  unfold toSigned
  have h0 : (0 : Int) < 2 ^ (w - 1) := pow_pos (by norm_num) _
  have hlt : 1 + (2 : Int) ^ (w - 1) < 2 ^ w := by
    have h2 : (2 : Int) ^ w = 2 ^ (w - 1) * 2 := by
      rw [← pow_succ]
      congr 1
      omega
    have h3 : (1 : Int) < 2 ^ (w - 1) := by
      calc (1 : Int) < 2 := by norm_num
      _ ≤ 2 ^ (w - 1) := by
        have : (2 : Int) ^ 1 ≤ 2 ^ (w - 1) :=
          pow_le_pow_right (by norm_num) (by omega)
        simpa using this
    omega
  rw [Int.emod_eq_of_lt (by omega) hlt]
  omega

/-- Stated from the wording of claim C1: the step, negated first when
the original update was a subtraction. -/
def specStep (w : Nat) (S : Int) (isAdd : Bool) : Int :=
  if isAdd then S else toSigned w (0 - S)

/-- The predicates the claim calls inclusive. -/
def inclusivePred (p : IPred) : Bool :=
  p = IPred.ule || p = IPred.sle || p = IPred.uge || p = IPred.sge

/-- Stated from the wording of claim C1: iterations is the terminal
value minus the initial value, plus the step when the predicate is
inclusive, divided by the step with signed (truncating) division, and
replaced by zero when not greater than zero — all at machine width. -/
def specIterations (w : Nat) (I B S : Int) (p : IPred) (isAdd : Bool) : Int :=
  let s := specStep w S isAdd
  let t0 := toSigned w (B - I)
  let t1 := if inclusivePred p then toSigned w (t0 + s) else t0
  let q := toSigned w (Int.tdiv t1 s)
  if 0 < q then q else 0

/-- Stated from the wording of claim C1: the new starting induction
value, `initial + (iterations - 1) * step` at machine width. -/
def specNewStart (w : Nat) (I B S : Int) (p : IPred) (isAdd : Bool) : Int :=
  let s := specStep w S isAdd
  toSigned w (I + toSigned w (toSigned w (specIterations w I B S p isAdd - 1) * s))

/-- Run the op sequence `emitReversalArith` produces (the exact
instruction sequence `cloneReversedLoop` emits in front of the new
loop) on extracted values `I`, `B`, `S` bound to `ext 0`, `ext 1` and
`ext 2`, and read back the iteration-count and new-start values. -/
def evalReversalArith (w : Nat) (p : IPred) (isAdd : Bool) (I B S : Int) :
    Option (Int × Int) :=
  let r := emitReversalArith w p isAdd (.ext 0) (.ext 1) (.ext 2) ⟨[], 0⟩
  let e : Nat → Int := fun i => if i = 0 then I else if i = 1 then B else S
  match runStraight e [] [] ⟨fun _ => 0, []⟩ r.1.ops with
  | some fin =>
      match resolveVal e [] [] fin.vals r.2.1, resolveVal e [] [] fin.vals r.2.2.1 with
      | some a, some b => some (a, b)
      | _, _ => none
  | none => none

set_option maxHeartbeats 2000000 in
/-- Claim C1: interpreting the instruction sequence the Loop Reversal
Engine emits yields exactly the claimed trip count and new starting
value, for every extracted initial value, terminal value, step,
predicate and update kind; on the spec's concrete vectors the numbers
are 10 and 9 (exclusive) and 6 and 10 (inclusive). -/
theorem reversal_arithmetic (w : Nat) (p : IPred) (isAdd : Bool) (I B S : Int)
    (hw : 2 ≤ w) :
    evalReversalArith w p isAdd I B S =
      some (specIterations w I B S p isAdd, specNewStart w I B S p isAdd) ∧
    specIterations 32 0 10 1 .slt true = 10 ∧
    specNewStart 32 0 10 1 .slt true = 9 ∧
    specIterations 32 0 10 2 .sle true = 6 ∧
    specNewStart 32 0 10 2 .sle true = 10 := by
  refine ⟨?_, by decide, by decide, by decide, by decide⟩
  have hz := toSigned_zero w (by omega)
  have ho := toSigned_one w hw
  have hsel : ∀ q z : Int,
      (if ((if 0 < q then (1 : Int) else 0) ≠ 0) then q else z) =
        if 0 < q then q else z := by
    intro q z
    by_cases h : 0 < q <;> simp [h]
  have hiff : ∀ A : Int, (if A ≤ 0 then (0 : Int) else A) = (if 0 < A then A else 0) := by
    intro A
    split_ifs <;> omega
  unfold evalReversalArith emitReversalArith EmitSt.emit specNewStart
  by_cases hp : (p = IPred.ule ∨ p = IPred.sle ∨ p = IPred.uge ∨ p = IPred.sge)
  · have hip : inclusivePred p = true := by
      unfold inclusivePred
      rcases hp with h | h | h | h <;> simp [h]
    cases isAdd <;>
      simp only [if_pos hp, hip, Bool.false_eq_true, Bool.true_eq_false, if_false,
        if_true, ite_true, ite_false] <;>
      simp [runStraight, evalStraightOp, resolveVal, hz, ho, evalIPred, hsel] <;>
      constructor <;>
      simp [specIterations, specStep, hip, hiff]
  · have hip : inclusivePred p = false := by
      unfold inclusivePred
      push_neg at hp
      obtain ⟨h1, h2, h3, h4⟩ := hp
      simp [h1, h2, h3, h4]
    cases isAdd <;>
      simp only [if_neg hp, hip, Bool.false_eq_true, Bool.true_eq_false, if_false,
        if_true, ite_true, ite_false] <;>
      simp [runStraight, evalStraightOp, resolveVal, hz, ho, evalIPred, hsel] <;>
      constructor <;>
      simp [specIterations, specStep, hip, hiff]

theorem reversal_arithmetic_witness :
    2 ≤ 32 ∧
    evalReversalArith 32 .slt true 0 10 1 =
      some (specIterations 32 0 10 1 .slt true, specNewStart 32 0 10 1 .slt true) :=
  ⟨by norm_num, (reversal_arithmetic 32 .slt true 0 10 1 (by norm_num)).1⟩

end ApplySpec
